import Mathlib

/-!
# paneldump: metric-name extraction from PromQL expressions

A shallow embedding of `pkg/plugin/resources.go`:

* `stripGrafanaMacros` replaces every match of the regular expression `\$\w+` by `5m`;
* `ExtractMetricNames` parses each normalised expression, walks the syntax tree and
  collects the metric names referenced by vector selectors, deduplicated, together with
  one error string per input expression.

The PromQL parser is an external library.  Its `ParseExpr` is a parameter of the model
(`parse : String → Except String Node`), its syntax tree and `Inspect` are modelled below.
Go strings are modelled by Lean strings, Go slices by lists and the `seen` map by the list
of its keys.
-/

namespace Paneldump

/-! ## Macro normalisation -/

/-- The character class `\w` of Go regular expressions: `[0-9A-Za-z_]`. -/
def isWordChar (c : Char) : Bool := c.isAlphanum || c == '_'

/-- True when the text starts with a character of class `\w`. -/
def startsWithWord : List Char → Bool
  | [] => false
  | c :: _ => isWordChar c

/-- The scanner behind `macroRegexp.ReplaceAllString(expr, "5m")` for `macroRegexp = \$\w+`.
The flag tells whether the previous character was consumed by a match of `\$\w+` that is
still open: the greedy `\w+` then keeps consuming word characters.  Otherwise a match starts
at a `$` that is followed by a word character, and is replaced by `5m`; every other character
is copied.  Matches are found left to right and do not overlap. -/
def replaceAllMacro : Bool → List Char → List Char
  | _, [] => []
  | inMatch, c :: cs =>
    if inMatch && isWordChar c then replaceAllMacro true cs
    else if c == '$' && startsWithWord cs then '5' :: 'm' :: replaceAllMacro true cs
    else c :: replaceAllMacro false cs

/-- Go: `func stripGrafanaMacros(expr string) string`. -/
def stripGrafanaMacros (expr : String) : String :=
  String.mk (replaceAllMacro false expr.data)

/-! ## The syntax tree of the PromQL parser -/

/-- Go: `labels.MatchType`. -/
inductive MatchType where
  | MatchEqual
  | MatchNotEqual
  | MatchRegexp
  | MatchNotRegexp
  deriving DecidableEq, Repr

/-- Go: `labels.Matcher` (the fields the extractor reads; `Typ` is the Go field `Type`). -/
structure Matcher where
  Typ : MatchType
  Name : String
  Value : String
  deriving DecidableEq, Repr

/-- Go: `labels.MetricName`. -/
def MetricName : String := "__name__"

/-- Modelled from the spec: the node types of the external PromQL parser package
(`parser.Node`), which is not part of this repository.  Only the vector selector carries
data the extractor reads; the other variants are traversed through. -/
inductive Node where
  | NumberLiteral
  | StringLiteral (Val : String)
  | VectorSelector (Name : String) (LabelMatchers : List Matcher)
  | MatrixSelector (VectorSelector : Node)
  | SubqueryExpr (Expr : Node)
  | ParenExpr (Expr : Node)
  | UnaryExpr (Expr : Node)
  | StepInvariantExpr (Expr : Node)
  | BinaryExpr (LHS : Node) (RHS : Node)
  | AggregateExpr (Expr : Node) (Param : Option Node)
  | Call (Func : String) (Args : List Node)

/-- Modelled from the spec: `parser.Children` of the external PromQL parser package, the
direct sub-expressions of a node in the order in which the walk visits them. -/
def Children : Node → List Node
  | .NumberLiteral => []
  | .StringLiteral _ => []
  | .VectorSelector _ _ => []
  | .MatrixSelector vs => [vs]
  | .SubqueryExpr e => [e]
  | .ParenExpr e => [e]
  | .UnaryExpr e => [e]
  | .StepInvariantExpr e => [e]
  | .BinaryExpr l r => [l, r]
  | .AggregateExpr e none => [e]
  | .AggregateExpr e (some p) => [e, p]
  | .Call _ args => args

mutual
/-- Modelled from the spec: `parser.Inspect` of the external PromQL parser package, a
depth-first walk that calls `f` on the node, then walks the children in order, then calls
`f` once more with the nil node.  The callback of this repository always returns a nil
error, so the walk is never cut short; `σ` is the state the callback closes over. -/
def Inspect {σ : Type} (f : σ → Option Node → σ) : Node → σ → σ
  | .NumberLiteral, st => f (f st (some .NumberLiteral)) none
  | .StringLiteral v, st => f (f st (some (.StringLiteral v))) none
  | .VectorSelector n ms, st => f (f st (some (.VectorSelector n ms))) none
  | .MatrixSelector vs, st => f (Inspect f vs (f st (some (.MatrixSelector vs)))) none
  | .SubqueryExpr e, st => f (Inspect f e (f st (some (.SubqueryExpr e)))) none
  | .ParenExpr e, st => f (Inspect f e (f st (some (.ParenExpr e)))) none
  | .UnaryExpr e, st => f (Inspect f e (f st (some (.UnaryExpr e)))) none
  | .StepInvariantExpr e, st => f (Inspect f e (f st (some (.StepInvariantExpr e)))) none
  | .BinaryExpr l r, st =>
    f (Inspect f r (Inspect f l (f st (some (.BinaryExpr l r))))) none
  | .AggregateExpr e none, st => f (Inspect f e (f st (some (.AggregateExpr e none)))) none
  | .AggregateExpr e (some p), st =>
    f (Inspect f p (Inspect f e (f st (some (.AggregateExpr e (some p)))))) none
  | .Call fn args, st => f (InspectAll f args (f st (some (.Call fn args)))) none
/-- The walk of a list of sibling nodes, left to right. -/
def InspectAll {σ : Type} (f : σ → Option Node → σ) : List Node → σ → σ
  | [], st => st
  | e :: es, st => InspectAll f es (Inspect f e st)
end

/-! ## The extractor -/

/-- The variables `ExtractMetricNames` updates: the key set of the map `seen`, the slice
`metrics` and the slice `perExprErrors`. -/
structure ExtractState where
  seen : List String
  metrics : List String
  perExprErrors : List String
  deriving DecidableEq, Repr

/-- Go: the closure `add` of `ExtractMetricNames`. -/
def add (st : ExtractState) (name : String) : ExtractState :=
  if name = "" then st
  else if name ∈ st.seen then st
  else { st with seen := name :: st.seen, metrics := st.metrics ++ [name] }

/-- Go: the loop `for _, m := range vs.LabelMatchers` of the callback, with its `break`.
`addName` is the closure `add` the callback calls. -/
def scanMatchers {σ : Type} (addName : σ → String → σ) (st : σ) : List Matcher → σ
  | [] => st
  | m :: rest =>
    if m.Name = MetricName ∧ (m.Typ = .MatchEqual ∨ m.Typ = .MatchRegexp) then
      if m.Typ = .MatchEqual then addName st m.Value else st
    else scanMatchers addName st rest

/-- Go: the callback passed to `parser.Inspect`.  `addName` is the closure `add` it calls;
the node is `none` for the nil node, on which the type assertion fails. -/
def visit {σ : Type} (addName : σ → String → σ) (st : σ) : Option Node → σ
  | some (.VectorSelector name matchers) =>
    if name ≠ "" then addName st name else scanMatchers addName st matchers
  | _ => st

/-- Go: the loop `for i, in := range exprs` of `ExtractMetricNames`; `i` is the index of
the first expression of the list. -/
def extractLoop (parse : String → Except String Node) :
    List String → Nat → ExtractState → ExtractState
  | [], _, st => st
  | x :: rest, i, st =>
    match parse (stripGrafanaMacros x) with
    | .error err =>
      extractLoop parse rest (i + 1) { st with perExprErrors := st.perExprErrors.set i err }
    | .ok expr => extractLoop parse rest (i + 1) (Inspect (visit add) expr st)

/-- Go: `func ExtractMetricNames(exprs []string) (metrics []string, perExprErrors []string)`.
`parse` is `parser.ParseExpr`, with the error reduced to its description `err.Error()`. -/
def ExtractMetricNames (parse : String → Except String Node) (exprs : List String) :
    List String × List String :=
  let st := extractLoop parse exprs 0
    { seen := [], metrics := [], perExprErrors := List.replicate exprs.length "" }
  (st.metrics, st.perExprErrors)

/-! ## Specification-side definitions -/

/-- The recording instance of the closure `add`: it appends the name it is called with. -/
def record (trace : List String) (name : String) : List String := trace ++ [name]

/-- The references an expression produces: the arguments of the calls of `add` the callback
makes during the walk of the expression, in the order of the walk. -/
def producedReferences (expr : Node) : List String := Inspect (visit record) expr []

/-- The parser accepts the normalised text of the raw expression. -/
def parses (parse : String → Except String Node) (raw : String) : Bool :=
  match parse (stripGrafanaMacros raw) with
  | .ok _ => true
  | .error _ => false

/-- The non-empty references of one raw expression, in traversal order; an expression that
fails to parse has none. -/
def nonEmptyReferences (parse : String → Except String Node) (raw : String) : List String :=
  match parse (stripGrafanaMacros raw) with
  | .ok expr => (producedReferences expr).filter (fun r => r ≠ "")
  | .error _ => []

/-- Keep-first deduplication: the first element stays, and is removed from the deduplicated
rest. -/
def dedupKeepFirst : List String → List String
  | [] => []
  | x :: xs => x :: (dedupKeepFirst xs).filter (fun y => y ≠ x)

/-- The error string the specification gives to one raw expression. -/
def expectedError (parse : String → Except String Node) (raw : String) : String :=
  match parse (stripGrafanaMacros raw) with
  | .ok _ => ""
  | .error err => err

/-- All references of one raw expression, empty ones included. -/
def allReferences (parse : String → Except String Node) (raw : String) : List String :=
  match parse (stripGrafanaMacros raw) with
  | .ok expr => producedReferences expr
  | .error _ => []

/-- The effect of `add` on the pair of `seen` and `metrics`. -/
def addCore (c : List String × List String) (name : String) : List String × List String :=
  if name = "" then c
  else if name ∈ c.1 then c
  else (name :: c.1, c.2 ++ [name])

/-- The text contains a macro token: a `$` immediately followed by an identifier
character. -/
def containsMacro : List Char → Bool
  | [] => false
  | c :: cs => (c == '$' && startsWithWord cs) || containsMacro cs

/-- The text starts with a macro token. -/
def startsWithMacro : List Char → Bool
  | [] => false
  | c :: cs => c == '$' && startsWithWord cs

/-- The text contains a `$` immediately followed by a macro token. -/
def containsDollarMacro : List Char → Bool
  | [] => false
  | c :: cs => (c == '$' && startsWithMacro cs) || containsDollarMacro cs

/-- A parser for the examples: it accepts three texts and rejects every other one. -/
def sampleParse : String → Except String Node
  | "up" => .ok (.VectorSelector "up" [])
  | "sum(rate(x[5m]))" =>
    .ok (.AggregateExpr (.Call "rate" [.MatrixSelector (.VectorSelector "x" [])]) none)
  | "\x7b__name__=\"up\"\x7d" => .ok (.VectorSelector "" [⟨.MatchEqual, "__name__", "up"⟩])
  | _ => .error "parse error"

/-- A parser for the example batch: it accepts the four selectors of the batch and the
call `rate(x[5m])`, and rejects every other text. -/
def exampleParse : String → Except String Node
  | "up" => .ok (.VectorSelector "up" [])
  | "node_cpu_seconds_total\x7bmode=\"idle\"\x7d" =>
    .ok (.VectorSelector "node_cpu_seconds_total" [⟨.MatchEqual, "mode", "idle"⟩])
  | "\x7b__name__=\"foo\"\x7d" => .ok (.VectorSelector "" [⟨.MatchEqual, "__name__", "foo"⟩])
  | "\x7b__name__=~\"foo.*\"\x7d" =>
    .ok (.VectorSelector "" [⟨.MatchRegexp, "__name__", "foo.*"⟩])
  | "rate(x[5m])" => .ok (.Call "rate" [.MatrixSelector (.VectorSelector "x" [])])
  | _ => .error "unexpected left parenthesis"

/-- A parser for the example batch that returns the trees of the PromQL parser: to a
selector with an explicit name the parser appends the matcher `__name__=<name>`. -/
def promqlExampleParse : String → Except String Node
  | "up" => .ok (.VectorSelector "up" [⟨.MatchEqual, "__name__", "up"⟩])
  | "node_cpu_seconds_total\x7bmode=\"idle\"\x7d" =>
    .ok (.VectorSelector "node_cpu_seconds_total"
      [⟨.MatchEqual, "mode", "idle"⟩, ⟨.MatchEqual, "__name__", "node_cpu_seconds_total"⟩])
  | "\x7b__name__=\"foo\"\x7d" => .ok (.VectorSelector "" [⟨.MatchEqual, "__name__", "foo"⟩])
  | "\x7b__name__=~\"foo.*\"\x7d" =>
    .ok (.VectorSelector "" [⟨.MatchRegexp, "__name__", "foo.*"⟩])
  | _ => .error "unexpected left parenthesis"

/-- The node `n` occurs in the expression `e`: it is `e` itself or occurs in one of the
children of `e`. -/
inductive Occurs (n : Node) : Node → Prop where
  | root : Occurs n n
  | child {c e : Node} : c ∈ Children e → Occurs n c → Occurs n e

/-- An expression with a selector under an aggregation, a binary expression, parentheses,
a subquery and a function call: `sum((rate({__name__="deep"}[5m])[1h:]) + up)`. -/
def nestedExpr : Node :=
  .AggregateExpr
    (.BinaryExpr
      (.ParenExpr (.SubqueryExpr
        (.Call "rate" [.MatrixSelector (.VectorSelector "" [⟨.MatchEqual, "__name__", "deep"⟩])])))
      (.VectorSelector "up" []))
    none

/-- A parser for the examples: it accepts the text of `nestedExpr` and `up`. -/
def nestedParse : String → Except String Node
  | "sum((rate(\x7b__name__=\"deep\"\x7d[5m])[1h:]) + up)" => .ok nestedExpr
  | "up" => .ok (.VectorSelector "up" [])
  | _ => .error "parse error"

/-! ## The request handler -/

/-- Go: `http.MethodPost`. -/
def MethodPost : String := "POST"

/-- Go: `http.StatusOK`. -/
def StatusOK : Nat := 200

/-- Go: `http.StatusBadRequest`. -/
def StatusBadRequest : Nat := 400

/-- Go: `http.StatusMethodNotAllowed`. -/
def StatusMethodNotAllowed : Nat := 405

/-- Go: `*http.Request`, the fields the handler reads. -/
structure Request where
  Method : String
  Body : String
  deriving DecidableEq, Repr

/-- Go: the map `resp` of `handleParseExprs`, one field per key. -/
structure ParseResponse where
  ok : Bool
  queriesReceived : Nat
  exprs : List String
  metrics : List String
  metricsCount : Nat
  parseErrorsByIdx : List String
  deriving DecidableEq, Repr

/-- What the handler writes to the `http.ResponseWriter`: either `http.Error(w, message, code)`
or the status `code` followed by the encoded map. -/
inductive Response where
  | httpError (message : String) (code : Nat)
  | encoded (code : Nat) (body : ParseResponse)
  deriving DecidableEq, Repr

/-- Go: `func (a *App) handleParseExprs(w http.ResponseWriter, req *http.Request)`.
`decode` is `json.NewDecoder(req.Body).Decode(&exprs)` of the standard library and `core` is
the function called on the decoded batch, `ExtractMetricNames` in the repository.  A failure
of the response writer while the body is written is outside the model: the status line is
sent before. -/
def handleParseExprs (decode : String → Except String (List String))
    (core : List String → List String × List String) (req : Request) : Response :=
  if req.Method ≠ MethodPost then .httpError "method not allowed" StatusMethodNotAllowed
  else
    match decode req.Body with
    | .error _ => .httpError "invalid JSON body" StatusBadRequest
    | .ok exprs =>
      let result := core exprs
      .encoded StatusOK
        { ok := true
          queriesReceived := exprs.length
          exprs := exprs
          metrics := result.1
          metricsCount := result.1.length
          parseErrorsByIdx := result.2 }

/-- A decoder for the examples: it accepts two bodies and rejects every other one. -/
def sampleDecode : String → Except String (List String)
  | "[\"up\", \"((\"]" => .ok ["up", "(("]
  | "[]" => .ok []
  | _ => .error "json: cannot unmarshal"

/-! ## The walk as a fold -/

mutual
/-- A relation between two callback states that every callback step preserves is preserved
by the whole walk. -/
theorem Inspect_rel {σ τ : Type} (R : σ → τ → Prop) (f : σ → Option Node → σ)
    (g : τ → Option Node → τ) (hstep : ∀ s t n, R s t → R (f s n) (g t n)) :
    ∀ (e : Node) (s : σ) (t : τ), R s t → R (Inspect f e s) (Inspect g e t)
  | .NumberLiteral, s, t, h => by
    simp only [Inspect]; exact hstep _ _ _ (hstep _ _ _ h)
  | .StringLiteral _, s, t, h => by
    simp only [Inspect]; exact hstep _ _ _ (hstep _ _ _ h)
  | .VectorSelector _ _, s, t, h => by
    simp only [Inspect]; exact hstep _ _ _ (hstep _ _ _ h)
  | .MatrixSelector e, s, t, h => by
    simp only [Inspect]
    exact hstep _ _ _ (Inspect_rel R f g hstep e _ _ (hstep _ _ _ h))
  | .SubqueryExpr e, s, t, h => by
    simp only [Inspect]
    exact hstep _ _ _ (Inspect_rel R f g hstep e _ _ (hstep _ _ _ h))
  | .ParenExpr e, s, t, h => by
    simp only [Inspect]
    exact hstep _ _ _ (Inspect_rel R f g hstep e _ _ (hstep _ _ _ h))
  | .UnaryExpr e, s, t, h => by
    simp only [Inspect]
    exact hstep _ _ _ (Inspect_rel R f g hstep e _ _ (hstep _ _ _ h))
  | .StepInvariantExpr e, s, t, h => by
    simp only [Inspect]
    exact hstep _ _ _ (Inspect_rel R f g hstep e _ _ (hstep _ _ _ h))
  | .BinaryExpr l r, s, t, h => by
    simp only [Inspect]
    exact hstep _ _ _ (Inspect_rel R f g hstep r _ _
      (Inspect_rel R f g hstep l _ _ (hstep _ _ _ h)))
  | .AggregateExpr e none, s, t, h => by
    simp only [Inspect]
    exact hstep _ _ _ (Inspect_rel R f g hstep e _ _ (hstep _ _ _ h))
  | .AggregateExpr e (some p), s, t, h => by
    simp only [Inspect]
    exact hstep _ _ _ (Inspect_rel R f g hstep p _ _
      (Inspect_rel R f g hstep e _ _ (hstep _ _ _ h)))
  | .Call _ args, s, t, h => by
    simp only [Inspect]
    exact hstep _ _ _ (InspectAll_rel R f g hstep args _ _ (hstep _ _ _ h))
/-- The same for the walk of a list of siblings. -/
theorem InspectAll_rel {σ τ : Type} (R : σ → τ → Prop) (f : σ → Option Node → σ)
    (g : τ → Option Node → τ) (hstep : ∀ s t n, R s t → R (f s n) (g t n)) :
    ∀ (es : List Node) (s : σ) (t : τ), R s t → R (InspectAll f es s) (InspectAll g es t)
  | [], s, t, h => by simpa only [InspectAll] using h
  | e :: es, s, t, h => by
    simp only [InspectAll]
    exact InspectAll_rel R f g hstep es _ _ (Inspect_rel R f g hstep e _ _ h)
end

/-- The walk visits the node, then its children in order, then the nil node. -/
theorem Inspect_eq_children {σ : Type} (f : σ → Option Node → σ) (e : Node) (st : σ) :
    Inspect f e st = f (InspectAll f (Children e) (f st (some e))) none := by
  cases e with
  | AggregateExpr e p => cases p <;> simp [Inspect, InspectAll, Children]
  | _ => simp [Inspect, InspectAll, Children]

theorem foldl_record (trace names : List String) :
    names.foldl record trace = trace ++ names := by
  induction names generalizing trace with
  | nil => simp
  | cons x xs ih => simp [List.foldl_cons, ih, record]

/-- The matcher loop calls `add` on the names the recording instance records. -/
theorem scanMatchers_fold {σ : Type} (addName : σ → String → σ) (st : σ)
    (ms : List Matcher) :
    scanMatchers addName st ms = (scanMatchers record [] ms).foldl addName st := by
  induction ms with
  | nil => simp [scanMatchers]
  | cons m rest ih =>
    simp only [scanMatchers]
    split_ifs <;> simp [record, ih]

/-- The callback calls `add` on the names the recording instance records. -/
theorem visit_fold {σ : Type} (addName : σ → String → σ) (st : σ) (n : Option Node) :
    visit addName st n = (visit record [] n).foldl addName st := by
  unfold visit
  split
  · split_ifs
    · simp [record]
    · exact scanMatchers_fold addName st _
  · simp

/-- The walk with the callback calls `add` on the references of the expression, in order. -/
theorem Inspect_visit_fold {σ : Type} (addName : σ → String → σ) (e : Node) (st : σ) :
    Inspect (visit addName) e st = (producedReferences e).foldl addName st := by
  have h := Inspect_rel (fun (l : List String) (s : σ) => s = l.foldl addName st)
    (visit record) (visit addName)
    (by
      intro l s n hs
      rw [visit_fold record l n, foldl_record, List.foldl_append, ← hs]
      exact visit_fold addName s n)
    e [] st rfl
  exact h

/-- The walk of a list of siblings calls `add` on the references of the siblings, in
order. -/
theorem InspectAll_visit_fold {σ : Type} (addName : σ → String → σ) (es : List Node) :
    ∀ st : σ, InspectAll (visit addName) es st
      = (es.flatMap producedReferences).foldl addName st := by
  induction es with
  | nil => intro st; rfl
  | cons e rest ih =>
    intro st
    simp only [InspectAll, List.flatMap_cons, List.foldl_append]
    rw [Inspect_visit_fold, ih]

/-- The references of an expression in traversal order: the reference of the node itself,
then the references of its children, left to right. -/
theorem producedReferences_eq (e : Node) :
    producedReferences e
      = visit record [] (some e) ++ (Children e).flatMap producedReferences := by
  have hnil : ∀ l : List String, visit record l none = l := fun _ => rfl
  unfold producedReferences
  rw [Inspect_eq_children, hnil, InspectAll_visit_fold, foldl_record]
  rfl

/-! ## The closure `add` -/

theorem add_core (st : ExtractState) (name : String) :
    ((add st name).seen, (add st name).metrics) = addCore (st.seen, st.metrics) name := by
  unfold add addCore
  split_ifs <;> rfl

theorem add_perExprErrors (st : ExtractState) (name : String) :
    (add st name).perExprErrors = st.perExprErrors := by
  unfold add
  split_ifs <;> rfl

theorem foldl_add_core (names : List String) (st : ExtractState) :
    ((names.foldl add st).seen, (names.foldl add st).metrics)
      = names.foldl addCore (st.seen, st.metrics) := by
  induction names generalizing st with
  | nil => rfl
  | cons x xs ih => simp only [List.foldl_cons]; rw [ih, add_core]

theorem foldl_add_perExprErrors (names : List String) (st : ExtractState) :
    (names.foldl add st).perExprErrors = st.perExprErrors := by
  induction names generalizing st with
  | nil => rfl
  | cons x xs ih => simp only [List.foldl_cons]; rw [ih, add_perExprErrors]

/-- Adding a list of names to a state in which `seen` holds exactly the names of `metrics`
appends the keep-first deduplication of the non-empty new names, and keeps the two in step. -/
theorem foldl_addCore_spec (names : List String) :
    ∀ c : List String × List String, (∀ x, x ∈ c.1 ↔ x ∈ c.2) →
      (∀ x, x ∈ (names.foldl addCore c).1 ↔ x ∈ (names.foldl addCore c).2) ∧
      (names.foldl addCore c).2
        = c.2 ++ (dedupKeepFirst (names.filter (fun r => r ≠ ""))).filter (fun y => y ∉ c.2) := by
  induction names with
  | nil => intro c hc; simp [dedupKeepFirst, hc]
  | cons x xs ih =>
    intro c hc
    simp only [List.foldl_cons]
    by_cases hx : x = ""
    · have hstep : addCore c x = c := by simp [addCore, hx]
      rw [hstep]
      have hf : (x :: xs).filter (fun r => r ≠ "") = xs.filter (fun r => r ≠ "") := by
        simp [List.filter_cons, hx]
      rw [hf]
      exact ih c hc
    · have hf : (x :: xs).filter (fun r => r ≠ "")
          = x :: xs.filter (fun r => r ≠ "") := by
        simp [List.filter_cons, hx]
      rw [hf]
      by_cases hs : x ∈ c.1
      · have hstep : addCore c x = c := by simp [addCore, hx, hs]
        rw [hstep]
        refine ⟨(ih c hc).1, ?_⟩
        rw [(ih c hc).2]
        have hm : x ∈ c.2 := (hc x).1 hs
        simp only [dedupKeepFirst, List.filter_cons, hm, not_true_eq_false, decide_False,
          Bool.false_eq_true, if_false, List.filter_filter]
        congr 1
        apply List.filter_congr
        intro y _
        by_cases hy : y ∈ c.2
        · simp [hy]
        · have : y ≠ x := fun h => hy (h ▸ hm)
          simp [hy, this]
      · have hstep : addCore c x = (x :: c.1, c.2 ++ [x]) := by simp [addCore, hx, hs]
        rw [hstep]
        have hm : x ∉ c.2 := fun h => hs ((hc x).2 h)
        have hc2 : ∀ y, y ∈ (x :: c.1, c.2 ++ [x]).1 ↔ y ∈ (x :: c.1, c.2 ++ [x]).2 := by
          intro y
          simp only [List.mem_cons, List.mem_append, List.mem_singleton, hc y]
          tauto
        refine ⟨(ih _ hc2).1, ?_⟩
        rw [(ih _ hc2).2]
        simp only [dedupKeepFirst, List.filter_cons, hm, not_false_eq_true, decide_True,
          if_true, List.filter_filter, List.append_assoc, List.singleton_append]
        congr 2
        apply List.filter_congr
        intro y _
        simp only [List.mem_append, List.mem_singleton, not_or]
        by_cases hy : y ∈ c.2 <;> by_cases hyx : y = x <;> simp [hy, hyx]

/-! ## The loop over the batch -/

theorem nonEmptyReferences_eq (parse : String → Except String Node) (raw : String) :
    nonEmptyReferences parse raw = (allReferences parse raw).filter (fun r => r ≠ "") := by
  unfold nonEmptyReferences allReferences
  split <;> simp

/-- The loop adds the references of the expressions, in order, to `seen` and `metrics`. -/
theorem extractLoop_core (parse : String → Except String Node) (exprs : List String) :
    ∀ (i : Nat) (st : ExtractState),
      ((extractLoop parse exprs i st).seen, (extractLoop parse exprs i st).metrics)
        = (exprs.flatMap (allReferences parse)).foldl addCore (st.seen, st.metrics) := by
  induction exprs with
  | nil => intro i st; rfl
  | cons x rest ih =>
    intro i st
    cases hp : parse (stripGrafanaMacros x) with
    | error err =>
      simp only [extractLoop, List.flatMap_cons, List.foldl_append, allReferences, hp]
      rw [ih]; rfl
    | ok expr =>
      simp only [extractLoop, List.flatMap_cons, List.foldl_append, allReferences, hp]
      rw [ih, Inspect_visit_fold, foldl_add_core]

theorem extractLoop_errors_length (parse : String → Except String Node)
    (exprs : List String) : ∀ (i : Nat) (st : ExtractState),
      (extractLoop parse exprs i st).perExprErrors.length = st.perExprErrors.length := by
  induction exprs with
  | nil => intro i st; rfl
  | cons x rest ih =>
    intro i st
    simp only [extractLoop]
    split
    · rw [ih]; simp
    · rw [ih, Inspect_visit_fold, foldl_add_perExprErrors]

/-- The loop started at index `i` leaves the entries before `i` alone. -/
theorem extractLoop_errors_before (parse : String → Except String Node)
    (exprs : List String) : ∀ (i : Nat) (st : ExtractState) (j : Nat), j < i →
      (extractLoop parse exprs i st).perExprErrors[j]? = st.perExprErrors[j]? := by
  induction exprs with
  | nil => intro i st j _; rfl
  | cons x rest ih =>
    intro i st j hj
    simp only [extractLoop]
    split
    · rw [ih _ _ j (by omega)]
      exact List.getElem?_set_ne (by omega)
    · rw [ih _ _ j (by omega), Inspect_visit_fold, foldl_add_perExprErrors]

/-- The entry of the `k`-th expression of the loop, when it starts out empty. -/
theorem extractLoop_errors_at (parse : String → Except String Node) (exprs : List String) :
    ∀ (i : Nat) (st : ExtractState) (k : Nat) (raw : String), exprs[k]? = some raw →
      st.perExprErrors[i + k]? = some "" →
      (extractLoop parse exprs i st).perExprErrors[i + k]?
        = some (expectedError parse raw) := by
  induction exprs with
  | nil => intro i st k raw h; simp at h
  | cons x rest ih =>
    intro i st k raw hk hinit
    cases k with
    | zero =>
      simp only [List.getElem?_cons_zero, Option.some.injEq] at hk
      subst hk
      simp only [Nat.add_zero] at hinit ⊢
      have hlt : i < st.perExprErrors.length := by
        by_contra hge
        rw [List.getElem?_eq_none (by omega)] at hinit
        exact Option.noConfusion hinit
      cases hp : parse (stripGrafanaMacros x) with
      | error err =>
        simp only [extractLoop, expectedError, hp]
        rw [extractLoop_errors_before _ _ _ _ i (by omega)]
        simp [List.getElem?_set, hlt]
      | ok expr =>
        simp only [extractLoop, expectedError, hp]
        rw [extractLoop_errors_before _ _ _ _ i (by omega), Inspect_visit_fold,
          foldl_add_perExprErrors]
        exact hinit
    | succ k =>
      simp only [List.getElem?_cons_succ] at hk
      have hidx : i + (k + 1) = (i + 1) + k := by omega
      rw [hidx] at hinit ⊢
      simp only [extractLoop]
      split
      · apply ih _ _ k raw hk
        show (st.perExprErrors.set i _)[i + 1 + k]? = some ""
        rw [List.getElem?_set_ne (by omega)]
        exact hinit
      · apply ih _ _ k raw hk
        rw [Inspect_visit_fold, foldl_add_perExprErrors]
        exact hinit

/-- The metric sequence of the extractor, as a fold of `add` over all references. -/
theorem ExtractMetricNames_metrics (parse : String → Except String Node)
    (exprs : List String) :
    (ExtractMetricNames parse exprs).1
      = dedupKeepFirst ((exprs.flatMap (allReferences parse)).filter (fun r => r ≠ "")) := by
  have h := extractLoop_core parse exprs 0
    { seen := [], metrics := [], perExprErrors := List.replicate exprs.length "" }
  have h2 := (foldl_addCore_spec (exprs.flatMap (allReferences parse)) ([], [])
    (by intro x; simp)).2
  simp only [ExtractMetricNames]
  have h3 := congrArg Prod.snd h
  simp only at h3
  rw [h3, h2]
  simp

theorem dedupKeepFirst_nodup (l : List String) : (dedupKeepFirst l).Nodup := by
  induction l with
  | nil => simp [dedupKeepFirst]
  | cons x xs ih =>
    simp only [dedupKeepFirst, List.nodup_cons]
    exact ⟨by simp [List.mem_filter], ih.filter _⟩

theorem mem_dedupKeepFirst (l : List String) (x : String) :
    x ∈ dedupKeepFirst l ↔ x ∈ l := by
  induction l with
  | nil => simp [dedupKeepFirst]
  | cons y ys ih =>
    simp only [dedupKeepFirst, List.mem_cons, List.mem_filter, ih]
    by_cases h : x = y <;> simp [h]

theorem flatMap_allReferences_filter (parse : String → Except String Node)
    (exprs : List String) :
    (exprs.filter (parses parse)).flatMap (allReferences parse)
      = exprs.flatMap (allReferences parse) := by
  induction exprs with
  | nil => rfl
  | cons x rest ih =>
    cases hp : parse (stripGrafanaMacros x) with
    | error err =>
      have h1 : parses parse x = false := by simp [parses, hp]
      have h2 : allReferences parse x = [] := by simp [allReferences, hp]
      simp [List.filter_cons, h1, h2, ih]
    | ok expr =>
      have h1 : parses parse x = true := by simp [parses, hp]
      simp [List.filter_cons, h1, ih]

/-- The matcher loop records at most one name. -/
theorem scanMatchers_record_length (ms : List Matcher) :
    (scanMatchers record [] ms).length ≤ 1 := by
  induction ms with
  | nil => simp [scanMatchers]
  | cons m rest ih =>
    simp only [scanMatchers]
    split_ifs <;> simp [record, ih]

/-- Matchers the guard of the loop rejects are passed over. -/
theorem scanMatchers_skip {σ : Type} (addName : σ → String → σ) (st : σ)
    (pre rest : List Matcher)
    (hpre : ∀ x ∈ pre, ¬ (x.Name = MetricName ∧ (x.Typ = .MatchEqual ∨ x.Typ = .MatchRegexp))) :
    scanMatchers addName st (pre ++ rest) = scanMatchers addName st rest := by
  induction pre with
  | nil => rfl
  | cons x xs ih =>
    have hx := hpre x (List.mem_cons_self _ _)
    simp only [List.cons_append, scanMatchers, hx, if_false]
    exact ih (fun y hy => hpre y (List.mem_cons_of_mem _ hy))

/-- The error sequence of the extractor, entry by entry. -/
theorem ExtractMetricNames_errors (parse : String → Except String Node)
    (exprs : List String) :
    (ExtractMetricNames parse exprs).2 = exprs.map (expectedError parse) := by
  apply List.ext_getElem?
  intro i
  simp only [ExtractMetricNames, List.getElem?_map]
  by_cases hi : i < exprs.length
  · have hraw : exprs[i]? = some exprs[i] := List.getElem?_eq_getElem hi
    have h := extractLoop_errors_at parse exprs 0
      { seen := [], metrics := [], perExprErrors := List.replicate exprs.length "" } i
      exprs[i] hraw (by simp [List.getElem?_replicate, hi])
    simp only [Nat.zero_add] at h
    rw [h, hraw]
    rfl
  · rw [List.getElem?_eq_none (by rw [extractLoop_errors_length]; simp; omega),
      List.getElem?_eq_none (by omega)]
    rfl

/-- The references of one selector are among those of every expression it occurs in. -/
theorem Occurs.references_subset {n e : Node} (h : Occurs n e) (r : String)
    (hr : r ∈ visit record [] (some n)) : r ∈ producedReferences e := by
  induction h with
  | root =>
    rw [producedReferences_eq]
    exact List.mem_append_left _ hr
  | child hc _ ih =>
    rw [producedReferences_eq]
    exact List.mem_append_right _ (List.mem_flatMap.2 ⟨_, hc, ih⟩)

/-- The metric sequence holds exactly the non-empty references of the batch. -/
theorem mem_ExtractMetricNames_metrics (parse : String → Except String Node)
    (exprs : List String) (r : String) :
    r ∈ (ExtractMetricNames parse exprs).1
      ↔ r ≠ "" ∧ ∃ raw ∈ exprs, r ∈ allReferences parse raw := by
  rw [ExtractMetricNames_metrics, mem_dedupKeepFirst, List.mem_filter, List.mem_flatMap]
  simp only [ne_eq, decide_eq_true_eq]
  tauto

/-- The metric sequence of a concatenated batch. -/
theorem ExtractMetricNames_metrics_append (parse : String → Except String Node)
    (a b : List String) :
    (ExtractMetricNames parse (a ++ b)).1
      = (ExtractMetricNames parse a).1
        ++ (ExtractMetricNames parse b).1.filter
          (fun y => y ∉ (ExtractMetricNames parse a).1) := by
  have hab := extractLoop_core parse (a ++ b) 0
    { seen := [], metrics := [], perExprErrors := List.replicate (a ++ b).length "" }
  have ha := extractLoop_core parse a 0
    { seen := [], metrics := [], perExprErrors := List.replicate a.length "" }
  simp only [List.flatMap_append, List.foldl_append] at hab
  rw [← ha] at hab
  have hinv := (foldl_addCore_spec (a.flatMap (allReferences parse)) ([], [])
    (by intro x; simp)).1
  rw [← ha] at hinv
  have hspec := (foldl_addCore_spec (b.flatMap (allReferences parse)) _ hinv).2
  rw [← hab] at hspec
  simp only at hspec
  rw [ExtractMetricNames_metrics parse b]
  simp only [ExtractMetricNames]
  exact hspec

/-- Keep-first deduplication of two permuted lists gives permuted lists. -/
theorem dedupKeepFirst_perm {l₁ l₂ : List String} (h : l₁.Perm l₂) :
    (dedupKeepFirst l₁).Perm (dedupKeepFirst l₂) := by
  rw [List.perm_ext_iff_of_nodup (dedupKeepFirst_nodup l₁) (dedupKeepFirst_nodup l₂)]
  intro a
  rw [mem_dedupKeepFirst, mem_dedupKeepFirst]
  exact h.mem_iff

/-! ## The macro scanner -/

theorem startsWithWord_append (p rest : List Char) (hrest : startsWithWord rest = false) :
    startsWithWord (p ++ rest) = startsWithWord p := by
  cases p with
  | nil => simpa [startsWithWord] using hrest
  | cons c cs => rfl

/-- Text without a macro token is copied. -/
theorem replaceAllMacro_no_macro (l : List Char) (h : containsMacro l = false) :
    replaceAllMacro false l = l := by
  induction l with
  | nil => rfl
  | cons c cs ih =>
    simp only [containsMacro, Bool.or_eq_false_iff] at h
    simp only [replaceAllMacro, Bool.false_and, Bool.false_eq_true, if_false, h.1, ih h.2]

/-- A prefix without a macro token is copied, when what follows it does not start with an
identifier character. -/
theorem replaceAllMacro_copy_before (p rest : List Char) (h : containsMacro p = false)
    (hrest : startsWithWord rest = false) :
    replaceAllMacro false (p ++ rest) = p ++ replaceAllMacro false rest := by
  induction p with
  | nil => rfl
  | cons c cs ih =>
    simp only [containsMacro, Bool.or_eq_false_iff] at h
    have hstart : (c == '$' && startsWithWord (cs ++ rest)) = false := by
      rw [startsWithWord_append cs rest hrest]; exact h.1
    rw [List.cons_append]
    simp only [replaceAllMacro, Bool.false_and, Bool.false_eq_true, if_false, hstart, ih h.2,
      List.cons_append]

/-- Inside a match the identifier characters are consumed. -/
theorem replaceAllMacro_word (w s : List Char) (hw : ∀ c ∈ w, isWordChar c = true) :
    replaceAllMacro true (w ++ s) = replaceAllMacro true s := by
  induction w with
  | nil => rfl
  | cons c cs ih =>
    have hc := hw c (List.mem_cons_self _ _)
    simp only [List.cons_append, replaceAllMacro, Bool.true_and, hc, if_true]
    exact ih (fun d hd => hw d (List.mem_cons_of_mem _ hd))

/-- A match ends before a character that is not an identifier character. -/
theorem replaceAllMacro_match_end (s : List Char) (hs : startsWithWord s = false) :
    replaceAllMacro true s = replaceAllMacro false s := by
  cases s with
  | nil => rfl
  | cons c cs =>
    simp only [startsWithWord] at hs
    simp [replaceAllMacro, hs]

/-- A macro token is replaced as a whole. -/
theorem replaceAllMacro_token (w s : List Char) (hne : w ≠ [])
    (hw : ∀ c ∈ w, isWordChar c = true) (hs : startsWithWord s = false) :
    replaceAllMacro false ('$' :: (w ++ s)) = '5' :: 'm' :: replaceAllMacro false s := by
  have hstart : startsWithWord (w ++ s) = true := by
    cases w with
    | nil => exact absurd rfl hne
    | cons c cs => exact hw c (List.mem_cons_self _ _)
  simp only [replaceAllMacro, Bool.false_and, Bool.false_eq_true, if_false, hstart,
    beq_self_eq_true, Bool.and_self, if_true]
  rw [replaceAllMacro_word w s hw, replaceAllMacro_match_end s hs]

/-- After a `$` that starts no macro token and is followed by none, the normalised text
does not start with an identifier character. -/
theorem startsWithWord_replaceAllMacro (l : List Char) (hw : startsWithWord l = false)
    (hm : startsWithMacro l = false) : startsWithWord (replaceAllMacro false l) = false := by
  cases l with
  | nil => rfl
  | cons d ds =>
    have hm2 : (d == '$' && startsWithWord ds) = false := hm
    have hstep : replaceAllMacro false (d :: ds) = d :: replaceAllMacro false ds := by
      simp only [replaceAllMacro, Bool.false_and, Bool.false_eq_true, if_false, hm2]
    rw [hstep]
    exact hw

/-- Without a `$` in front of a macro token, the normalised text has no macro token. -/
theorem containsMacro_replaceAllMacro (l : List Char) :
    ∀ b : Bool, containsDollarMacro l = false → containsMacro (replaceAllMacro b l) = false := by
  induction l with
  | nil => intro b _; rfl
  | cons c cs ih =>
    intro b h
    simp only [containsDollarMacro, Bool.or_eq_false_iff] at h
    simp only [replaceAllMacro]
    split_ifs with h1 h2
    · exact ih true h.2
    · have h5 : ('5' == '$') = false := by decide
      have hm : ('m' == '$') = false := by decide
      simp only [containsMacro, h5, hm, Bool.false_and, Bool.false_or]
      exact ih true h.2
    · simp only [containsMacro, Bool.or_eq_false_iff]
      refine ⟨?_, ih false h.2⟩
      cases hc : (c == '$') with
      | false => rfl
      | true =>
        rw [hc] at h h2
        simp only [Bool.true_and] at h h2 ⊢
        exact startsWithWord_replaceAllMacro cs (by simpa using h2) h.1

/-- With a `$` in front of a macro token, the normalised text has a macro token. -/
theorem containsMacro_replaceAllMacro_of_dollar (l : List Char) :
    ∀ b : Bool, containsDollarMacro l = true → containsMacro (replaceAllMacro b l) = true := by
  induction l with
  | nil => intro b h; simp [containsDollarMacro] at h
  | cons c cs ih =>
    intro b h
    simp only [containsDollarMacro, Bool.or_eq_true, Bool.and_eq_true] at h
    rcases h with ⟨hc, hcs⟩ | h
    · have hc2 : c = '$' := by simpa using hc
      subst hc2
      cases cs with
      | nil => simp [startsWithMacro] at hcs
      | cons d ds =>
        simp only [startsWithMacro, Bool.and_eq_true] at hcs
        have hd : d = '$' := by simpa using hcs.1
        subst hd
        have hnw : isWordChar '$' = false := by decide
        have hsw : startsWithWord ('$' :: ds) = false := hnw
        have hstep : replaceAllMacro b ('$' :: '$' :: ds)
            = '$' :: '5' :: 'm' :: replaceAllMacro true ds := by
          simp only [replaceAllMacro, hnw, hsw, hcs.2, Bool.and_false, Bool.false_and,
            Bool.false_eq_true, if_false, beq_self_eq_true, Bool.and_self, if_true]
        rw [hstep]
        rfl
    · simp only [replaceAllMacro]
      split_ifs
      · exact ih true h
      · simp [containsMacro, ih true h]
      · simp [containsMacro, ih false h]

/-- Text with a macro token is changed: the first token starts with `$`, its replacement
with `5`. -/
theorem replaceAllMacro_ne_of_token (l : List Char) (h : containsMacro l = true) :
    replaceAllMacro false l ≠ l := by
  induction l with
  | nil => simp [containsMacro] at h
  | cons c cs ih =>
    simp only [replaceAllMacro, Bool.false_and, Bool.false_eq_true, if_false]
    split_ifs with h1
    · intro heq
      have hc : c = '$' := by
        simp only [Bool.and_eq_true] at h1
        simpa using h1.1
      have h5 : '5' = c := (List.cons.inj heq).1
      rw [hc] at h5
      exact absurd h5 (by decide)
    · intro heq
      simp only [containsMacro, Bool.or_eq_true] at h
      rcases h with h | h
      · exact h1 h
      · exact ih h (List.cons.inj heq).2

/-! ## The claims -/

/-- C1: for every parser and every batch, the empty one included, the error sequence
returned by `ExtractMetricNames` has exactly as many entries as the batch. -/
theorem C1_errors_length (parse : String → Except String Node) (exprs : List String) :
    (ExtractMetricNames parse exprs).2.length = exprs.length := by
  simp [ExtractMetricNames, extractLoop_errors_length]

/-- C2: the metric sequence returned by `ExtractMetricNames` is the keep-first
deduplication of the concatenation, in index order, of the non-empty references each
successfully parsed expression produces in traversal order; an expression that fails to
parse contributes the empty list. -/
theorem C2_metrics_dedup_first_seen (parse : String → Except String Node)
    (exprs : List String) :
    (ExtractMetricNames parse exprs).1
      = dedupKeepFirst (exprs.flatMap (nonEmptyReferences parse)) := by
  rw [ExtractMetricNames_metrics, List.filter_flatMap]
  congr 2
  funext raw
  exact (nonEmptyReferences_eq parse raw).symm

/-- C3: the metric sequence returned by `ExtractMetricNames` contains no duplicates. -/
theorem C3_metrics_nodup (parse : String → Except String Node) (exprs : List String) :
    (ExtractMetricNames parse exprs).1.Nodup := by
  rw [ExtractMetricNames_metrics]
  exact dedupKeepFirst_nodup _

/-- C4: the `i`-th error string is empty when the parser accepts the normalised text of the
`i`-th expression, and is the parser's error description for the normalised text when the
parser rejects it. -/
theorem C4_error_at_index (parse : String → Except String Node) (exprs : List String)
    (i : Nat) (raw : String) (hraw : exprs[i]? = some raw) :
    (∀ expr, parse (stripGrafanaMacros raw) = .ok expr →
        (ExtractMetricNames parse exprs).2[i]? = some "") ∧
    (∀ err, parse (stripGrafanaMacros raw) = .error err →
        (ExtractMetricNames parse exprs).2[i]? = some err) := by
  have hi : i < exprs.length := by
    by_contra hge
    rw [List.getElem?_eq_none (by omega)] at hraw
    exact Option.noConfusion hraw
  have h := extractLoop_errors_at parse exprs 0
    { seen := [], metrics := [], perExprErrors := List.replicate exprs.length "" } i raw hraw
    (by simp [List.getElem?_replicate, hi])
  simp only [Nat.zero_add] at h
  constructor
  · intro expr hp
    simp only [ExtractMetricNames]
    rw [h]; simp [expectedError, hp]
  · intro err hp
    simp only [ExtractMetricNames]
    rw [h]; simp [expectedError, hp]

/-- C4 at a batch of three expressions: the second is rejected, the others accepted. -/
theorem C4_error_at_index_witness :
    (ExtractMetricNames sampleParse ["up", "((", "sum(rate(x[$__interval]))"]).2[1]?
        = some "parse error" ∧
    (ExtractMetricNames sampleParse ["up", "((", "sum(rate(x[$__interval]))"]).2[2]?
        = some "" :=
  ⟨(C4_error_at_index sampleParse ["up", "((", "sum(rate(x[$__interval]))"] 1 "((" rfl).2
      "parse error" rfl,
    (C4_error_at_index sampleParse ["up", "((", "sum(rate(x[$__interval]))"] 2
      "sum(rate(x[$__interval]))" rfl).1
      (.AggregateExpr (.Call "rate" [.MatrixSelector (.VectorSelector "x" [])]) none) rfl⟩

/-- C5: a failed parse contributes no metric reference and does not stop the batch: the
metric sequence of a batch is the metric sequence of the batch without the expressions
whose normalised text the parser rejects. -/
theorem C5_failed_parse_contributes_nothing (parse : String → Except String Node)
    (exprs : List String) :
    (ExtractMetricNames parse exprs).1
      = (ExtractMetricNames parse (exprs.filter (parses parse))).1 := by
  rw [ExtractMetricNames_metrics, ExtractMetricNames_metrics, flatMap_allReferences_filter]

/-- C6: resolution of one vector selector.  A non-empty explicit name is the reference,
whatever the matchers; with an empty name, when the first matcher on `__name__` has the
equality operator its value is the reference; with an empty name and no matcher on
`__name__` nothing is contributed; and a selector never contributes more than one
reference. -/
theorem C6_selector_resolution {σ : Type} (addName : σ → String → σ) (st : σ)
    (name : String) (ms pre post : List Matcher) (m : Matcher) :
    (name ≠ "" → visit addName st (some (.VectorSelector name ms)) = addName st name) ∧
    ((∀ x ∈ pre, x.Name ≠ MetricName) → m.Name = MetricName → m.Typ = .MatchEqual →
      visit addName st (some (.VectorSelector "" (pre ++ m :: post))) = addName st m.Value) ∧
    ((∀ x ∈ ms, x.Name ≠ MetricName) →
      visit addName st (some (.VectorSelector "" ms)) = st) ∧
    (visit record [] (some (.VectorSelector name ms))).length ≤ 1 := by
  refine ⟨?_, ?_, ?_, ?_⟩
  · intro hname
    simp [visit, hname]
  · intro hpre hm ht
    simp only [visit, ne_eq, not_true_eq_false, if_false]
    rw [scanMatchers_skip addName st pre _ (fun x hx h => hpre x hx h.1)]
    simp [scanMatchers, hm, ht]
  · intro hms
    simp only [visit, ne_eq, not_true_eq_false, if_false]
    have h := scanMatchers_skip addName st ms [] (fun x hx h => hms x hx h.1)
    simpa [scanMatchers] using h
  · simp only [visit]
    split_ifs
    · simp [record]
    · exact scanMatchers_record_length ms

/-- C6 at the selectors `up{job="x"}`, `{job="x", __name__="foo", __name__="bar"}` and
`{job="x"}`. -/
theorem C6_selector_resolution_witness :
    visit record [] (some (.VectorSelector "up" [⟨.MatchEqual, "job", "x"⟩])) = ["up"] ∧
    visit record [] (some (.VectorSelector ""
      ([⟨.MatchEqual, "job", "x"⟩] ++ ⟨.MatchEqual, "__name__", "foo"⟩ ::
        [⟨.MatchEqual, "__name__", "bar"⟩]))) = ["foo"] ∧
    visit record [] (some (.VectorSelector "" [⟨.MatchEqual, "job", "x"⟩])) = [] ∧
    (visit record [] (some (.VectorSelector "up" [⟨.MatchEqual, "job", "x"⟩]))).length ≤ 1 :=
  ⟨(C6_selector_resolution record [] "up" [⟨.MatchEqual, "job", "x"⟩]
      [⟨.MatchEqual, "job", "x"⟩] [⟨.MatchEqual, "__name__", "bar"⟩]
      ⟨.MatchEqual, "__name__", "foo"⟩).1 (by decide),
    (C6_selector_resolution record [] "up" [⟨.MatchEqual, "job", "x"⟩]
      [⟨.MatchEqual, "job", "x"⟩] [⟨.MatchEqual, "__name__", "bar"⟩]
      ⟨.MatchEqual, "__name__", "foo"⟩).2.1 (by decide) rfl rfl,
    (C6_selector_resolution record [] "up" [⟨.MatchEqual, "job", "x"⟩]
      [⟨.MatchEqual, "job", "x"⟩] [⟨.MatchEqual, "__name__", "bar"⟩]
      ⟨.MatchEqual, "__name__", "foo"⟩).2.2.1 (by decide),
    (C6_selector_resolution record [] "up" [⟨.MatchEqual, "job", "x"⟩]
      [⟨.MatchEqual, "job", "x"⟩] [⟨.MatchEqual, "__name__", "bar"⟩]
      ⟨.MatchEqual, "__name__", "foo"⟩).2.2.2⟩

/-- C7 as stated fails: in the selector `{__name__!="a", __name__="b"}` the first matcher
on `__name__` has the not-equal operator, and the selector still produces the reference
`b`, from the matcher after it. -/
theorem C7_counterexample :
    ¬ (∀ (pre post : List Matcher) (m : Matcher),
        (∀ x ∈ pre, x.Name ≠ MetricName) → m.Name = MetricName → m.Typ ≠ .MatchEqual →
        visit record [] (some (.VectorSelector "" (pre ++ m :: post))) = []) := by
  intro h
  have h1 := h [] [⟨.MatchEqual, "__name__", "b"⟩] ⟨.MatchNotEqual, "__name__", "a"⟩
    (by decide) rfl (by decide)
  revert h1
  decide

/-- C7, amended: in a selector with no explicit name, when the first matcher on `__name__`
whose operator is equality or regex-equality has the regex-equality operator, no reference
is produced, whatever matchers follow it; and a matcher on `__name__` with a negated
operator (not-equal, not-regex) is passed over: the scan goes on with the matchers after
it. -/
theorem C7_regex_name_matcher_skipped {σ : Type} (addName : σ → String → σ) (st : σ)
    (pre post : List Matcher) (m : Matcher)
    (hpre : ∀ x ∈ pre,
      x.Name ≠ MetricName ∨ x.Typ = .MatchNotEqual ∨ x.Typ = .MatchNotRegexp)
    (hm : m.Name = MetricName) :
    (m.Typ = .MatchRegexp →
      visit addName st (some (.VectorSelector "" (pre ++ m :: post))) = st) ∧
    (m.Typ = .MatchNotEqual ∨ m.Typ = .MatchNotRegexp →
      visit addName st (some (.VectorSelector "" (pre ++ m :: post)))
        = visit addName st (some (.VectorSelector "" post))) := by
  have hskip : ∀ x ∈ pre,
      ¬ (x.Name = MetricName ∧ (x.Typ = .MatchEqual ∨ x.Typ = .MatchRegexp)) := by
    intro x hx hc
    rcases hpre x hx with h | h | h
    · exact h hc.1
    · rcases hc.2 with h2 | h2 <;> rw [h] at h2 <;> exact MatchType.noConfusion h2
    · rcases hc.2 with h2 | h2 <;> rw [h] at h2 <;> exact MatchType.noConfusion h2
  constructor
  · intro ht
    simp only [visit, ne_eq, not_true_eq_false, if_false]
    rw [scanMatchers_skip addName st pre _ hskip]
    simp [scanMatchers, hm, ht]
  · intro ht
    simp only [visit, ne_eq, not_true_eq_false, if_false]
    rw [scanMatchers_skip addName st pre _ hskip]
    rcases ht with ht | ht <;> simp [scanMatchers, hm, ht]

/-- C7, amended, at the selectors `{job="x", __name__!="a", __name__=~"b.*", __name__="c"}`
and `{job="x", __name__!="a", __name__="c"}`. -/
theorem C7_regex_name_matcher_skipped_witness :
    visit record [] (some (.VectorSelector ""
      ([⟨.MatchEqual, "job", "x"⟩, ⟨.MatchNotEqual, "__name__", "a"⟩] ++
        ⟨.MatchRegexp, "__name__", "b.*"⟩ :: [⟨.MatchEqual, "__name__", "c"⟩]))) = [] ∧
    visit record [] (some (.VectorSelector ""
      ([⟨.MatchEqual, "job", "x"⟩] ++
        ⟨.MatchNotEqual, "__name__", "a"⟩ :: [⟨.MatchEqual, "__name__", "c"⟩])))
      = visit record [] (some (.VectorSelector "" [⟨.MatchEqual, "__name__", "c"⟩])) :=
  ⟨(C7_regex_name_matcher_skipped record []
      [⟨.MatchEqual, "job", "x"⟩, ⟨.MatchNotEqual, "__name__", "a"⟩]
      [⟨.MatchEqual, "__name__", "c"⟩] ⟨.MatchRegexp, "__name__", "b.*"⟩
      (by decide) rfl).1 rfl,
    (C7_regex_name_matcher_skipped record [] [⟨.MatchEqual, "job", "x"⟩]
      [⟨.MatchEqual, "__name__", "c"⟩] ⟨.MatchNotEqual, "__name__", "a"⟩
      (by decide) rfl).2 (Or.inl rfl)⟩

/-- C8: leftmost, greedy, non-overlapping replacement.  For a prefix `p` without a macro
token, a non-empty string `w` of identifier characters and a suffix `s` that is empty or
starts with a character that is not an identifier character, the normalisation of
`p ++ "$" ++ w ++ s` is `p ++ "5m"` followed by the normalisation of `s`; and `$1abc`
becomes `5m`. -/
theorem C8_macro_replaced (p w s : String) (hp : containsMacro p.data = false)
    (hne : w ≠ "") (hw : ∀ c ∈ w.data, isWordChar c = true)
    (hs : startsWithWord s.data = false) :
    stripGrafanaMacros (p ++ "$" ++ w ++ s) = p ++ "5m" ++ stripGrafanaMacros s ∧
    stripGrafanaMacros "$1abc" = "5m" := by
  refine ⟨?_, by decide⟩
  apply String.ext
  have hne2 : w.data ≠ [] := fun h => hne (String.ext h)
  have hdollar : startsWithWord ('$' :: (w.data ++ s.data)) = false := rfl
  simp only [stripGrafanaMacros, String.data_append, List.append_assoc]
  show replaceAllMacro false (p.data ++ ('$' :: (w.data ++ s.data))) = _
  rw [replaceAllMacro_copy_before p.data _ hp hdollar, replaceAllMacro_token w.data s.data hne2 hw hs]
  rfl

/-- C8 at `a$ + $__interval-$x`: the prefix ends in a bare `$` and the suffix starts with
`-`. -/
theorem C8_macro_replaced_witness :
    stripGrafanaMacros ("a$ + " ++ "$" ++ "__interval" ++ "-$x") = "a$ + " ++ "5m" ++ "-5m" ∧
    stripGrafanaMacros "$1abc" = "5m" :=
  C8_macro_replaced "a$ + " "__interval" "-$x" (by decide) (by decide) (by decide) (by decide)

/-- C9: a string without a macro token, that is one in which no `$` is immediately
followed by an identifier character, is left as it is. -/
theorem C9_no_macro_noop (s : String) (h : containsMacro s.data = false) :
    stripGrafanaMacros s = s := by
  apply String.ext
  simp only [stripGrafanaMacros]
  exact replaceAllMacro_no_macro s.data h

/-- C9 at `up{a="$"} $- x$`: a `$` before a non-identifier character and a bare trailing
`$` are kept. -/
theorem C9_no_macro_noop_witness :
    containsMacro "up\x7ba=\"$\"\x7d $- x$".data = false ∧
    stripGrafanaMacros "up\x7ba=\"$\"\x7d $- x$" = "up\x7ba=\"$\"\x7d $- x$" :=
  ⟨by decide, C9_no_macro_noop "up\x7ba=\"$\"\x7d $- x$" (by decide)⟩

/-- C10 as stated fails: `$$a` is normalised to `$5m`, which is a macro token and is
normalised to `5m`. -/
theorem C10_counterexample :
    ¬ (∀ s : String, stripGrafanaMacros (stripGrafanaMacros s) = stripGrafanaMacros s) := by
  intro h
  have h1 := h "$$a"
  revert h1
  decide

/-- C10, amended: normalisation is idempotent on the strings in which no `$` is immediately
followed by a macro token: their normalised text contains no macro token and normalising it
again changes nothing.  On every other string the second normalisation changes the text. -/
theorem C10_idempotent_when_no_dollar_token (s : String) :
    (containsDollarMacro s.data = false →
      containsMacro (stripGrafanaMacros s).data = false ∧
      stripGrafanaMacros (stripGrafanaMacros s) = stripGrafanaMacros s) ∧
    (containsDollarMacro s.data = true →
      stripGrafanaMacros (stripGrafanaMacros s) ≠ stripGrafanaMacros s) := by
  constructor
  · intro h
    have hc : containsMacro (stripGrafanaMacros s).data = false :=
      containsMacro_replaceAllMacro s.data false h
    refine ⟨hc, ?_⟩
    apply String.ext
    exact replaceAllMacro_no_macro _ hc
  · intro h heq
    have hc : containsMacro (stripGrafanaMacros s).data = true :=
      containsMacro_replaceAllMacro_of_dollar s.data false h
    exact replaceAllMacro_ne_of_token _ hc (congrArg String.data heq)

/-- C10, amended, at `rate(x[$__interval]) $ $a$b` and at `$$a`. -/
theorem C10_idempotent_when_no_dollar_token_witness :
    (containsMacro (stripGrafanaMacros "rate(x[$__interval]) $ $a$b").data = false ∧
      stripGrafanaMacros (stripGrafanaMacros "rate(x[$__interval]) $ $a$b")
        = stripGrafanaMacros "rate(x[$__interval]) $ $a$b") ∧
    stripGrafanaMacros (stripGrafanaMacros "$$a") ≠ stripGrafanaMacros "$$a" :=
  ⟨(C10_idempotent_when_no_dollar_token "rate(x[$__interval]) $ $a$b").1 (by decide),
    (C10_idempotent_when_no_dollar_token "$$a").2 (by decide)⟩

/-- C11: the example batch.  With a parser that maps the first two texts to selectors
with the explicit names `up` and `node_cpu_seconds_total`, whatever their matcher lists
(the PromQL parser appends `__name__=<name>` to them), the third to a selector without name
whose first matcher on `__name__` is `__name__="foo"`, the fourth to a selector without name
whose first matcher on `__name__` is `__name__=~"foo.*"`, and that rejects the fifth with a
non-empty description `e`, the extractor returns the metrics `up`,
`node_cpu_seconds_total`, `foo` and the errors `"", "", "", "", e`. -/
theorem C11_example_batch (parse : String → Except String Node) (e : String)
    (ms1 ms2 pre3 post3 pre4 post4 : List Matcher)
    (h1 : parse "up" = .ok (.VectorSelector "up" ms1))
    (h2 : parse "node_cpu_seconds_total\x7bmode=\"idle\"\x7d"
      = .ok (.VectorSelector "node_cpu_seconds_total" ms2))
    (hpre3 : ∀ x ∈ pre3, x.Name ≠ MetricName)
    (h3 : parse "\x7b__name__=\"foo\"\x7d"
      = .ok (.VectorSelector "" (pre3 ++ ⟨.MatchEqual, "__name__", "foo"⟩ :: post3)))
    (hpre4 : ∀ x ∈ pre4, x.Name ≠ MetricName)
    (h4 : parse "\x7b__name__=~\"foo.*\"\x7d"
      = .ok (.VectorSelector "" (pre4 ++ ⟨.MatchRegexp, "__name__", "foo.*"⟩ :: post4)))
    (h5 : parse "not valid ((" = .error e) (he : e ≠ "") :
    ExtractMetricNames parse ["up", "node_cpu_seconds_total\x7bmode=\"idle\"\x7d",
        "\x7b__name__=\"foo\"\x7d", "\x7b__name__=~\"foo.*\"\x7d", "not valid (("]
      = (["up", "node_cpu_seconds_total", "foo"], ["", "", "", "", e]) ∧ e ≠ "" := by
  have s1 : stripGrafanaMacros "up" = "up" := by decide
  have s2 : stripGrafanaMacros "node_cpu_seconds_total\x7bmode=\"idle\"\x7d"
      = "node_cpu_seconds_total\x7bmode=\"idle\"\x7d" := by decide
  have s3 : stripGrafanaMacros "\x7b__name__=\"foo\"\x7d" = "\x7b__name__=\"foo\"\x7d" := by
    decide
  have s4 : stripGrafanaMacros "\x7b__name__=~\"foo.*\"\x7d"
      = "\x7b__name__=~\"foo.*\"\x7d" := by decide
  have s5 : stripGrafanaMacros "not valid ((" = "not valid ((" := by decide
  have r1 : allReferences parse "up" = ["up"] := by
    simp [allReferences, s1, h1, producedReferences, Inspect, visit, record]
  have r2 : allReferences parse "node_cpu_seconds_total\x7bmode=\"idle\"\x7d"
      = ["node_cpu_seconds_total"] := by
    simp [allReferences, s2, h2, producedReferences, Inspect, visit, record]
  have r3 : allReferences parse "\x7b__name__=\"foo\"\x7d" = ["foo"] := by
    have hscan := scanMatchers_skip record [] pre3 (⟨.MatchEqual, "__name__", "foo"⟩ :: post3)
      (fun x hx hc => hpre3 x hx hc.1)
    simp [allReferences, s3, h3, producedReferences, Inspect, visit, hscan, scanMatchers,
      record, MetricName]
  have r4 : allReferences parse "\x7b__name__=~\"foo.*\"\x7d" = [] := by
    have hscan := scanMatchers_skip record [] pre4 (⟨.MatchRegexp, "__name__", "foo.*"⟩ :: post4)
      (fun x hx hc => hpre4 x hx hc.1)
    simp [allReferences, s4, h4, producedReferences, Inspect, visit, hscan, scanMatchers,
      MetricName]
  have r5 : allReferences parse "not valid ((" = [] := by
    simp [allReferences, s5, h5]
  refine ⟨Prod.ext ?_ ?_, he⟩
  · simp [ExtractMetricNames_metrics, r1, r2, r3, r4, r5, dedupKeepFirst]
  · simp [ExtractMetricNames_errors, expectedError, s1, s2, s3, s4, s5, h1, h2, h3, h4, h5]

/-- C11 at the parser `promqlExampleParse`, which returns the trees of the PromQL parser:
the selectors with an explicit name carry the appended matcher `__name__=<name>`. -/
theorem C11_example_batch_witness :
    ExtractMetricNames promqlExampleParse
        ["up", "node_cpu_seconds_total\x7bmode=\"idle\"\x7d",
        "\x7b__name__=\"foo\"\x7d", "\x7b__name__=~\"foo.*\"\x7d", "not valid (("]
      = (["up", "node_cpu_seconds_total", "foo"],
        ["", "", "", "", "unexpected left parenthesis"]) ∧
    "unexpected left parenthesis" ≠ "" :=
  C11_example_batch promqlExampleParse "unexpected left parenthesis"
    [⟨.MatchEqual, "__name__", "up"⟩]
    [⟨.MatchEqual, "mode", "idle"⟩, ⟨.MatchEqual, "__name__", "node_cpu_seconds_total"⟩]
    [] [] [] [] rfl rfl (by decide) rfl (by decide) rfl rfl (by decide)

/-- C12: the macro of `rate(x[$__rate_interval])` is normalised away before parsing: the
normalised text is `rate(x[5m])`, and with every parser that accepts `rate(x[5m])` as a call
over a selector named `x` the extractor returns the metrics `x` and the errors `""`. -/
theorem C12_macro_normalised_before_parse (parse : String → Except String Node)
    (fn : String) (ms : List Matcher)
    (h : parse "rate(x[5m])" = .ok (.Call fn [.MatrixSelector (.VectorSelector "x" ms)])) :
    stripGrafanaMacros "rate(x[$__rate_interval])" = "rate(x[5m])" ∧
    ExtractMetricNames parse ["rate(x[$__rate_interval])"] = (["x"], [""]) := by
  have hs : stripGrafanaMacros "rate(x[$__rate_interval])" = "rate(x[5m])" := by decide
  refine ⟨hs, ?_⟩
  simp only [ExtractMetricNames, extractLoop, hs, h]
  simp [Inspect, InspectAll, visit, add]

/-- C12 at the parser `exampleParse`, which rejects the raw text. -/
theorem C12_macro_normalised_before_parse_witness :
    exampleParse "rate(x[$__rate_interval])" = .error "unexpected left parenthesis" ∧
    stripGrafanaMacros "rate(x[$__rate_interval])" = "rate(x[5m])" ∧
    ExtractMetricNames exampleParse ["rate(x[$__rate_interval])"] = (["x"], [""]) :=
  ⟨rfl, C12_macro_normalised_before_parse exampleParse "rate" [] rfl⟩

/-- C13: the metric sequence never contains the empty string; a selector with an empty
name and the matcher `__name__=""` leaves the state as it is. -/
theorem C13_no_empty_metric (parse : String → Except String Node) (exprs : List String) :
    "" ∉ (ExtractMetricNames parse exprs).1 ∧
    ∀ st : ExtractState,
      visit add st (some (.VectorSelector "" [⟨.MatchEqual, MetricName, ""⟩])) = st := by
  constructor
  · intro h
    exact ((mem_ExtractMetricNames_metrics parse exprs "").1 h).1 rfl
  · intro st
    simp [visit, scanMatchers, add]

/-- C14: a batch of two expressions, one a selector with the explicit name `n` and one a
selector without explicit name whose first matcher on `__name__` is the equality matcher
`__name__ = n`, in either order, yields the metric sequence `[n]`, for every non-empty
`n`. -/
theorem C14_same_metric_two_forms (parse : String → Except String Node) (n : String)
    (raw1 raw2 : String) (ms1 pre post : List Matcher) (hn : n ≠ "")
    (h1 : parse (stripGrafanaMacros raw1) = .ok (.VectorSelector n ms1))
    (hpre : ∀ x ∈ pre, x.Name ≠ MetricName)
    (h2 : parse (stripGrafanaMacros raw2)
      = .ok (.VectorSelector "" (pre ++ ⟨.MatchEqual, MetricName, n⟩ :: post))) :
    (ExtractMetricNames parse [raw1, raw2]).1 = [n] ∧
    (ExtractMetricNames parse [raw2, raw1]).1 = [n] := by
  have r1 : allReferences parse raw1 = [n] := by
    simp [allReferences, h1, producedReferences, Inspect, visit, hn, record]
  have r2 : allReferences parse raw2 = [n] := by
    have hscan := scanMatchers_skip record [] pre (⟨.MatchEqual, MetricName, n⟩ :: post)
      (fun x hx hc => hpre x hx hc.1)
    simp [allReferences, h2, producedReferences, Inspect, visit, hscan, scanMatchers, record]
  constructor <;>
    simp [ExtractMetricNames_metrics, r1, r2, hn, dedupKeepFirst]

/-- C14 at the expressions `up` and `{__name__="up"}`. -/
theorem C14_same_metric_two_forms_witness :
    (ExtractMetricNames sampleParse ["up", "\x7b__name__=\"up\"\x7d"]).1 = ["up"] ∧
    (ExtractMetricNames sampleParse ["\x7b__name__=\"up\"\x7d", "up"]).1 = ["up"] :=
  C14_same_metric_two_forms sampleParse "up" "up" "\x7b__name__=\"up\"\x7d" [] [] []
    (by decide) rfl (by decide) rfl

/-- C15: for the empty batch the extractor returns an empty metric sequence and an empty
error sequence, with every parser. -/
theorem C15_empty_batch (parse : String → Except String Node) :
    ExtractMetricNames parse [] = ([], []) := rfl

/-- C16: the traversal is complete.  For every expression of the batch that parses and
every vector selector that occurs in its syntax tree, at the root or at any depth, a
non-empty reference the selector resolves to is a member of the metric sequence. -/
theorem C16_traversal_complete (parse : String → Except String Node) (exprs : List String)
    (raw : String) (expr : Node) (name : String) (ms : List Matcher) (r : String)
    (hraw : raw ∈ exprs) (hp : parse (stripGrafanaMacros raw) = .ok expr)
    (hocc : Occurs (.VectorSelector name ms) expr)
    (hr : r ∈ visit record [] (some (.VectorSelector name ms))) (hne : r ≠ "") :
    r ∈ (ExtractMetricNames parse exprs).1 := by
  rw [mem_ExtractMetricNames_metrics]
  refine ⟨hne, raw, hraw, ?_⟩
  simp only [allReferences, hp]
  exact hocc.references_subset r hr

/-- C16 at the selector `{__name__="deep"}` of `nestedExpr`, below an aggregation, a binary
expression, parentheses, a subquery, a call and a matrix selector. -/
theorem C16_traversal_complete_witness :
    "deep" ∈ (ExtractMetricNames nestedParse
      ["((", "sum((rate(\x7b__name__=\"deep\"\x7d[5m])[1h:]) + up)"]).1 :=
  C16_traversal_complete nestedParse
    ["((", "sum((rate(\x7b__name__=\"deep\"\x7d[5m])[1h:]) + up)"]
    "sum((rate(\x7b__name__=\"deep\"\x7d[5m])[1h:]) + up)" nestedExpr ""
    [⟨.MatchEqual, "__name__", "deep"⟩] "deep" (by decide) rfl
    (.child (e := nestedExpr) (List.mem_cons_self _ _)
      (.child (e := .BinaryExpr _ _) (List.mem_cons_self _ _)
        (.child (e := .ParenExpr _) (List.mem_cons_self _ _)
          (.child (e := .SubqueryExpr _) (List.mem_cons_self _ _)
            (.child (e := .Call _ _) (List.mem_cons_self _ _)
              (.child (e := .MatrixSelector _) (List.mem_cons_self _ _) .root))))))
    (by decide) (by decide)

/-- C17: the order of the batch does not change which metrics are found.  For a permuted
batch the metric sequence is a permutation of the original one, with the same names, and the
error sequence is permuted the same way: when `π` sends every index of the permuted batch to
the index of the same expression in the original batch, it does so for the errors. -/
theorem C17_batch_order (parse : String → Except String Node) (exprs exprs' : List String)
    (hperm : exprs'.Perm exprs) :
    (ExtractMetricNames parse exprs').1.Perm (ExtractMetricNames parse exprs).1 ∧
    (∀ x, x ∈ (ExtractMetricNames parse exprs').1 ↔ x ∈ (ExtractMetricNames parse exprs).1) ∧
    (∀ π : Nat → Nat, (∀ i, i < exprs'.length → exprs'[i]? = exprs[π i]?) →
      ∀ i, i < exprs'.length →
        (ExtractMetricNames parse exprs').2[i]? = (ExtractMetricNames parse exprs).2[π i]?) := by
  have hm : (ExtractMetricNames parse exprs').1.Perm (ExtractMetricNames parse exprs).1 := by
    rw [ExtractMetricNames_metrics, ExtractMetricNames_metrics]
    exact dedupKeepFirst_perm ((hperm.flatMap_right _).filter _)
  refine ⟨hm, fun x => hm.mem_iff, ?_⟩
  intro π hπ i hi
  rw [ExtractMetricNames_errors, ExtractMetricNames_errors, List.getElem?_map,
    List.getElem?_map, hπ i hi]

/-- C17 at a batch of three expressions and its rotation. -/
theorem C17_batch_order_witness :
    (ExtractMetricNames sampleParse ["sum(rate(x[5m]))", "up", "(("]).1.Perm
      (ExtractMetricNames sampleParse ["up", "((", "sum(rate(x[5m]))"]).1 ∧
    ∀ i, i < 3 →
      (ExtractMetricNames sampleParse ["sum(rate(x[5m]))", "up", "(("]).2[i]?
        = (ExtractMetricNames sampleParse ["up", "((", "sum(rate(x[5m]))"]).2[(i + 2) % 3]? :=
  ⟨(C17_batch_order sampleParse ["up", "((", "sum(rate(x[5m]))"]
      ["sum(rate(x[5m]))", "up", "(("] (by decide)).1,
    (C17_batch_order sampleParse ["up", "((", "sum(rate(x[5m]))"]
      ["sum(rate(x[5m]))", "up", "(("] (by decide)).2.2 (fun i => (i + 2) % 3) (by decide)⟩

/-- C18: the extractor is compositional over concatenation.  The metrics of `a ++ b` are
the metrics of `a` followed by the metrics of `b` that do not occur among those of `a`, in
their order, and the errors of `a ++ b` are the errors of `a` followed by those of `b`. -/
theorem C18_concatenation (parse : String → Except String Node) (a b : List String) :
    ExtractMetricNames parse (a ++ b)
      = ((ExtractMetricNames parse a).1
          ++ (ExtractMetricNames parse b).1.filter
            (fun y => y ∉ (ExtractMetricNames parse a).1),
        (ExtractMetricNames parse a).2 ++ (ExtractMetricNames parse b).2) := by
  apply Prod.ext
  · exact ExtractMetricNames_metrics_append parse a b
  · simp only [ExtractMetricNames_errors, List.map_append]

/-- C19: the handler rejects bad requests without the core.  A request whose method is not
`POST` gets the status 405, and a `POST` request whose body the decoder rejects gets the
status 400, both whatever the core function is; every other request gets the status 200
with `ok = true`, `queriesReceived` the length of the batch, `metricsCount` the length of
the metric sequence and `parseErrorsByIdx` of length `queriesReceived`. -/
theorem C19_handler (decode : String → Except String (List String))
    (parse : String → Except String Node)
    (core : List String → List String × List String) (req : Request) :
    (req.Method ≠ "POST" →
      handleParseExprs decode core req = .httpError "method not allowed" 405) ∧
    (req.Method = "POST" → ∀ err, decode req.Body = .error err →
      handleParseExprs decode core req = .httpError "invalid JSON body" 400) ∧
    (req.Method = "POST" → ∀ exprs, decode req.Body = .ok exprs →
      handleParseExprs decode (ExtractMetricNames parse) req
        = .encoded 200
          { ok := true
            queriesReceived := exprs.length
            exprs := exprs
            metrics := (ExtractMetricNames parse exprs).1
            metricsCount := (ExtractMetricNames parse exprs).1.length
            parseErrorsByIdx := (ExtractMetricNames parse exprs).2 } ∧
      (ExtractMetricNames parse exprs).2.length = exprs.length) := by
  refine ⟨?_, ?_, ?_⟩
  · intro hm
    simp [handleParseExprs, MethodPost, StatusMethodNotAllowed, hm]
  · intro hm err hd
    simp [handleParseExprs, MethodPost, StatusBadRequest, hm, hd]
  · intro hm exprs hd
    refine ⟨?_, ?_⟩
    · simp [handleParseExprs, MethodPost, StatusOK, hm, hd]
    · rw [ExtractMetricNames_errors, List.length_map]

/-- C19 at a `GET` request, at a `POST` request with the body `oops` and at a `POST` request
with a batch of two expressions; in the first two the core is an arbitrary constant
function. -/
theorem C19_handler_witness :
    handleParseExprs sampleDecode (fun _ => (["never"], [])) ⟨"GET", "[]"⟩
      = .httpError "method not allowed" 405 ∧
    handleParseExprs sampleDecode (fun _ => (["never"], [])) ⟨"POST", "oops"⟩
      = .httpError "invalid JSON body" 400 ∧
    handleParseExprs sampleDecode (ExtractMetricNames sampleParse) ⟨"POST", "[\"up\", \"((\"]"⟩
      = .encoded 200
        { ok := true
          queriesReceived := 2
          exprs := ["up", "(("]
          metrics := ["up"]
          metricsCount := 1
          parseErrorsByIdx := ["", "parse error"] } :=
  ⟨(C19_handler sampleDecode sampleParse (fun _ => (["never"], [])) ⟨"GET", "[]"⟩).1
      (by decide),
    (C19_handler sampleDecode sampleParse (fun _ => (["never"], [])) ⟨"POST", "oops"⟩).2.1
      rfl "json: cannot unmarshal" rfl,
    ((C19_handler sampleDecode sampleParse (fun _ => (["never"], []))
      ⟨"POST", "[\"up\", \"((\"]"⟩).2.2 rfl ["up", "(("] rfl).1⟩

end Paneldump
